import Mathlib

/-!
Verification of the statistical estimation pipeline of `portfolio_solver`.

The development shallowly embeds the dataframe pipeline of
`src/csv_parser.rs`, `src/csv_parser/utils.rs` and the initial-assignment
heuristic of `src/solver.rs` as pure functions over lists of records.
Dataframes become lists of row structures; `f64` values are modelled as `ℚ`
where only ordering and field arithmetic matter, and as `ℝ` where the code
uses `ln`, `exp` or `sqrt`.  Grouping (`groupby_stable`), joins and
cross-joins are modelled explicitly, keeping the source's first-occurrence
group order and first-match tie-breaks.
-/

/-! ## Generic list helpers (model polars primitives) -/

/-- Model of polars `unique_stable(... UniqueKeepStrategy::First)`: keep the
first occurrence of each element, preserving order.  `seen` carries the
elements already emitted. -/
def uniqueAux {α : Type} [DecidableEq α] (seen : List α) : List α → List α
  | [] => []
  | a :: l => if a ∈ seen then uniqueAux seen l else a :: uniqueAux (a :: seen) l

/-- First-occurrence deduplication, the model of `unique_stable`. -/
def uniqueStable {α : Type} [DecidableEq α] (l : List α) : List α :=
  uniqueAux [] l

theorem mem_uniqueAux {α : Type} [DecidableEq α] (x : α) :
    ∀ (l seen : List α), x ∈ uniqueAux seen l ↔ x ∈ l ∧ x ∉ seen := by
  intro l
  induction l with
  | nil => intro seen; simp [uniqueAux]
  | cons a l ih =>
    intro seen
    by_cases ha : a ∈ seen
    · simp only [uniqueAux, if_pos ha, ih, List.mem_cons]
      constructor
      · rintro ⟨hx, hns⟩; exact ⟨Or.inr hx, hns⟩
      · rintro ⟨hx | hx, hns⟩
        · exact absurd (hx ▸ ha) hns
        · exact ⟨hx, hns⟩
    · simp only [uniqueAux, if_neg ha, List.mem_cons, ih, List.mem_cons]
      constructor
      · rintro (rfl | ⟨hx, hns⟩)
        · exact ⟨Or.inl rfl, ha⟩
        · exact ⟨Or.inr hx, fun h => hns (Or.inr h)⟩
      · rintro ⟨rfl | hx, hns⟩
        · exact Or.inl rfl
        · by_cases hxa : x = a
          · exact Or.inl hxa
          · exact Or.inr ⟨hx, fun h => (by
              rcases h with h | h
              · exact hxa h
              · exact hns h : False)⟩

theorem mem_uniqueStable {α : Type} [DecidableEq α] {x : α} {l : List α} :
    x ∈ uniqueStable l ↔ x ∈ l := by
  simp [uniqueStable, mem_uniqueAux]

theorem nodup_uniqueAux {α : Type} [DecidableEq α] :
    ∀ (l seen : List α), (uniqueAux seen l).Nodup := by
  intro l
  induction l with
  | nil => intro seen; simp [uniqueAux]
  | cons a l ih =>
    intro seen
    by_cases ha : a ∈ seen
    · simpa [uniqueAux, if_pos ha] using ih seen
    · simp only [uniqueAux, if_neg ha, List.nodup_cons]
      refine ⟨fun hmem => ?_, ih (a :: seen)⟩
      exact ((mem_uniqueAux a l (a :: seen)).mp hmem).2 (List.mem_cons_self a seen)

theorem nodup_uniqueStable {α : Type} [DecidableEq α] (l : List α) :
    (uniqueStable l).Nodup :=
  nodup_uniqueAux l []

/-- First-match argmin: the model of `sort_by(target_field).first()` inside a
group aggregation (ties broken by input order, first match wins). -/
def argmin_first {α Q : Type} [LinearOrder Q] (f : α → Q) : List α → Option α
  | [] => none
  | a :: l =>
    match argmin_first f l with
    | none => some a
    | some b => if f b < f a then some b else some a

theorem argmin_first_mem {α Q : Type} [LinearOrder Q] (f : α → Q) :
    ∀ (l : List α) (a : α), argmin_first f l = some a → a ∈ l := by
  intro l
  induction l with
  | nil => intro a h; simp [argmin_first] at h
  | cons x l ih =>
    intro a h
    simp only [argmin_first] at h
    rcases hm : argmin_first f l with _ | b
    · rw [hm] at h; cases h; exact List.mem_cons_self x l
    · rw [hm] at h
      dsimp only at h
      by_cases hlt : f b < f x
      · rw [if_pos hlt] at h; cases h; exact List.mem_cons_of_mem x (ih a hm)
      · rw [if_neg hlt] at h; cases h; exact List.mem_cons_self x l

theorem argmin_first_isSome {α Q : Type} [LinearOrder Q] (f : α → Q)
    (l : List α) (h : l ≠ []) : (argmin_first f l).isSome := by
  cases l with
  | nil => exact absurd rfl h
  | cons x l =>
    simp only [argmin_first]
    rcases argmin_first f l with _ | b
    · rfl
    · dsimp only
      by_cases hlt : f b < f x
      · rw [if_pos hlt]; rfl
      · rw [if_neg hlt]; rfl

/-! ## Row types -/

/-- One run record of the logical table consumed by the aggregation
functions: `instance` key, `algorithm` key, `quality` and `time` columns.
The key columns are abstract types with decidable equality; the value type
`Q` is `ℚ` where only ordering matters and `ℝ` for the `ln`-based parts. -/
structure RunRow (I A Q : Type) where
  inst : I
  algo : A
  quality : Q
  time : Q
deriving DecidableEq

/-- One row of the `stats` output: `(instance, algorithm, sample_size, e_min)`. -/
structure StatRow (I A Q : Type) where
  inst : I
  algo : A
  sample_size : ℕ
  e_min : Q
deriving DecidableEq

/-- The join key `(instance_fields, algorithm_fields, sample_size)` used by
`cleanup_missing_rows`. -/
def statKey {I A Q : Type} (r : StatRow I A Q) : I × A × ℕ :=
  (r.inst, r.algo, r.sample_size)

/-! ## AggregationEngine (src/csv_parser.rs, src/csv_parser/utils.rs) -/

/-- `best_per_instance` (src/csv_parser.rs lines 302-309):
`groupby_stable(instance_fields).agg(min(target_field))` with the quality
column as target. -/
def best_per_instance {I A Q : Type} [DecidableEq I] [LinearOrder Q]
    (df : List (RunRow I A Q)) : List (I × Q) :=
  (uniqueStable (df.map (·.inst))).filterMap (fun i =>
    (((df.filter (fun r => r.inst = i)).map (·.quality)).min?).map (fun m => (i, m)))

/-- `best_per_instance_time` (src/csv_parser/utils.rs lines 105-122):
per instance group, the `time` of the row with minimal `quality`
(`sort_by(quality).first()`, first match wins on ties), renamed `best_time`. -/
def best_per_instance_time {I A Q : Type} [DecidableEq I] [LinearOrder Q]
    (df : List (RunRow I A Q)) : List (I × Q) :=
  (uniqueStable (df.map (·.inst))).filterMap (fun i =>
    (argmin_first (fun r => r.quality) (df.filter (fun r => r.inst = i))).map
      (fun r => (i, r.time)))

/-- The per-instance winning algorithms computed inside
`best_per_instance_count`: for each instance group (stable order), the
algorithm of the row selected by `sort_by(target_field).first()`. -/
def winnersOf {I A Q : Type} [DecidableEq I] [LinearOrder Q]
    (df : List (RunRow I A Q)) : List A :=
  (uniqueStable (df.map (·.inst))).filterMap (fun i =>
    (argmin_first (fun r => r.quality) (df.filter (fun r => r.inst = i))).map
      (fun r => r.algo))

/-- `best_per_instance_count` (src/csv_parser/utils.rs lines 393-423): per
instance, the algorithm of the minimal-target row; occurrences counted per
algorithm (cast to float); outer join against the distinct algorithm list
with missing counts filled with 0. -/
def best_per_instance_count {I A Q : Type} [DecidableEq I] [DecidableEq A]
    [LinearOrder Q] (df : List (RunRow I A Q)) : List (A × ℚ) :=
  let algorithm_series := uniqueStable (df.map (·.algo))
  (uniqueStable (winnersOf df)).map
      (fun a => (a, ((winnersOf df).count a : ℚ)))
    ++ (algorithm_series.filter (fun a => a ∉ uniqueStable (winnersOf df))).map
        (fun a => (a, (0 : ℚ)))

/-! ## Completeness pass (src/csv_parser/utils.rs lines 288-321) -/

/-- The cartesian product `instances × algorithms × (1..=k)` built by
`cleanup_missing_rows` via two `cross_join`s. -/
def prodTriples {I A : Type} (is : List I) (as : List A) (k : ℕ) :
    List (I × A × ℕ) :=
  is.flatMap (fun i => as.flatMap (fun a =>
    (List.range k).map (fun s => (i, a, s + 1))))

/-- The rows the outer join of `cleanup_missing_rows` produces for one key
`t` of the cartesian product: all left rows with that key, or one sentinel
row with `e_min = maxVal` (the `FillNullStrategy::MaxBound` fill) when the
key has no match. -/
def cleanupBucket {I A Q : Type} [DecidableEq I] [DecidableEq A]
    (maxVal : Q) (df : List (StatRow I A Q)) (t : I × A × ℕ) :
    List (StatRow I A Q) :=
  match df.filter (fun r => statKey r = t) with
  | [] => [⟨t.1, t.2.1, t.2.2, maxVal⟩]
  | r :: l => r :: l

/-- `cleanup_missing_rows`: outer join of the stats rows onto the full
cartesian product of their distinct instances, distinct algorithms and
`1..=k`, with missing `e_min` filled by `FillNullStrategy::MaxBound`
(modelled by the parameter `maxVal`, instantiated with `f64::MAX`).
Matched product keys keep all their rows; product keys without a match get
one sentinel row; rows of the left table whose key is outside the product
are kept (full outer join). -/
def cleanup_missing_rows {I A Q : Type} [DecidableEq I] [DecidableEq A]
    (maxVal : Q) (df : List (StatRow I A Q)) (k : ℕ) : List (StatRow I A Q) :=
  let algorithm_series := uniqueStable (df.map (·.algo))
  let instance_series := uniqueStable (df.map (·.inst))
  let full_df := prodTriples instance_series algorithm_series k
  full_df.flatMap (cleanupBucket maxVal df)
    ++ df.filter (fun r => statKey r ∉ full_df)

/-- `ndarray::Array3::from_shape_vec` followed by `.expect(...)` in
`Data::new` (src/csv_parser.rs lines 96-118): succeeds only when the flat
vector has exactly `m * n * k` entries, otherwise the pipeline aborts
(modelled by `none`); it never truncates or pads. -/
def from_shape_vec {Q : Type} (m n k : ℕ) (l : List Q) : Option (List Q) :=
  if l.length = m * n * k then some l else none

/-- `f64::MAX = (2^53 - 1) * 2^971`, the sentinel written by
`FillNullStrategy::MaxBound` and `fill_null(lit(std::f64::MAX))`. -/
def MAXF64 : ℚ := (2 ^ 53 - 1) * 2 ^ 971

/-! ## OrderStatisticEstimator (src/csv_parser.rs lines 438-452) -/

/-- `expected_maximum_approximation(sample_size) = sqrt(2.0 * ln(sample_size))`. -/
noncomputable def expected_maximum_approximation (sample_size : ℕ) : ℝ :=
  Real.sqrt (2 * Real.log sample_size)

/-- The value computed by `expected_normdist_min` before its assertion:
`(mean - std * expected_maximum_approximation(sample_size)).max(min)`. -/
noncomputable def expected_normdist_min_val (mean std : ℝ) (sample_size : ℕ)
    (min : ℝ) : ℝ :=
  max (mean - std * expected_maximum_approximation sample_size) min

/-- `expected_normdist_min` with its `assert!(result >= 0.0)` modelled as
`none` (the panic) when the clamped value is negative. -/
noncomputable def expected_normdist_min (mean std : ℝ) (sample_size : ℕ)
    (min : ℝ) : Option ℝ :=
  if 0 ≤ expected_normdist_min_val mean std sample_size min then
    some (expected_normdist_min_val mean std sample_size min)
  else none

/-- C4: for every mean, std ≥ 0, sample_size ≥ 1 and lower_bound ≥ 0, the
estimator returns a value (the assertion does not fire) that is ≥ the lower
bound and ≥ 0; moreover the assertion can only fire (result `none`) when the
lower bound itself is negative. -/
theorem expected_normdist_min_safe (mean std : ℝ) (s : ℕ) (min : ℝ)
    (_hstd : 0 ≤ std) (_hs : 1 ≤ s) (hmin : 0 ≤ min) :
    (∃ v, expected_normdist_min mean std s min = some v ∧ min ≤ v ∧ 0 ≤ v)
    ∧ ∀ (mean' std' : ℝ) (s' : ℕ) (min' : ℝ),
        expected_normdist_min mean' std' s' min' = none → min' < 0 := by
  constructor
  · have hv : min ≤ expected_normdist_min_val mean std s min := le_max_right _ _
    have h0 : 0 ≤ expected_normdist_min_val mean std s min := le_trans hmin hv
    exact ⟨expected_normdist_min_val mean std s min,
      by rw [expected_normdist_min, if_pos h0], hv, h0⟩
  · intro mean' std' s' min' hnone
    by_contra hge
    push_neg at hge
    have hv : min' ≤ expected_normdist_min_val mean' std' s' min' := le_max_right _ _
    have h0 : 0 ≤ expected_normdist_min_val mean' std' s' min' := le_trans hge hv
    rw [expected_normdist_min, if_pos h0] at hnone
    exact Option.noConfusion hnone

theorem expected_normdist_min_safe_witness :
    (0:ℝ) ≤ 1 ∧ 1 ≤ 1 ∧ (0:ℝ) ≤ 0 ∧
    ((∃ v, expected_normdist_min 5 1 1 0 = some v ∧ (0:ℝ) ≤ v ∧ 0 ≤ v)
     ∧ ∀ (mean' std' : ℝ) (s' : ℕ) (min' : ℝ),
        expected_normdist_min mean' std' s' min' = none → min' < 0) :=
  ⟨by norm_num, le_rfl, le_rfl,
    expected_normdist_min_safe 5 1 1 0 (by norm_num) le_rfl le_rfl⟩

/-- C5: with std ≥ 0, both the raw estimate
`mean - std * sqrt(2 ln s)` and the clamped estimate
`max(mean - std * sqrt(2 ln s), lower_bound)` are non-increasing in the
sample size over s ≥ 1. -/
theorem expected_min_monotone (mean std min : ℝ) (s t : ℕ)
    (hstd : 0 ≤ std) (hs : 1 ≤ s) (hst : s ≤ t) :
    expected_normdist_min_val mean std t min
      ≤ expected_normdist_min_val mean std s min
    ∧ mean - std * expected_maximum_approximation t
      ≤ mean - std * expected_maximum_approximation s := by
  have hs1 : (1:ℝ) ≤ (s:ℝ) := by exact_mod_cast hs
  have hst' : (s:ℝ) ≤ (t:ℝ) := by exact_mod_cast hst
  have hlog : Real.log s ≤ Real.log t :=
    Real.log_le_log (by linarith) hst'
  have happ : expected_maximum_approximation s ≤ expected_maximum_approximation t :=
    Real.sqrt_le_sqrt (by linarith)
  have hmul : std * expected_maximum_approximation s
      ≤ std * expected_maximum_approximation t :=
    mul_le_mul_of_nonneg_left happ hstd
  have hraw : mean - std * expected_maximum_approximation t
      ≤ mean - std * expected_maximum_approximation s := by linarith
  exact ⟨max_le_max hraw le_rfl, hraw⟩

theorem expected_min_monotone_witness :
    (0:ℝ) ≤ 1 ∧ 1 ≤ 1 ∧ 1 ≤ 2 ∧
    (expected_normdist_min_val 0 1 2 0 ≤ expected_normdist_min_val 0 1 1 0
     ∧ (0:ℝ) - 1 * expected_maximum_approximation 2
       ≤ 0 - 1 * expected_maximum_approximation 1) :=
  ⟨by norm_num, le_rfl, by norm_num,
    expected_min_monotone 0 1 0 1 2 (by norm_num) le_rfl (by norm_num)⟩

/-! ## Lemmas on the cartesian product and the outer-join buckets -/

theorem mem_prodTriples {I A : Type} {is : List I} {as : List A} {k : ℕ}
    {t : I × A × ℕ} :
    t ∈ prodTriples is as k ↔
      t.1 ∈ is ∧ t.2.1 ∈ as ∧ 1 ≤ t.2.2 ∧ t.2.2 ≤ k := by
  rcases t with ⟨i, a, s⟩
  simp only [prodTriples, List.mem_flatMap, List.mem_map, List.mem_range,
    Prod.mk.injEq]
  constructor
  · rintro ⟨i', hi', a', ha', s', hs', rfl, rfl, rfl⟩
    exact ⟨hi', ha', by omega, by omega⟩
  · rintro ⟨hi, ha, hs1, hsk⟩
    exact ⟨i, hi, a, ha, s - 1, by omega, rfl, rfl, by omega⟩

theorem nodup_innerPairs {I A : Type} [DecidableEq A] (i : I) (as : List A)
    (k : ℕ) (ha : as.Nodup) :
    (as.flatMap (fun a => (List.range k).map (fun s => (i, a, s + 1)))).Nodup := by
  induction as with
  | nil => simp
  | cons a as ih =>
    rcases List.nodup_cons.mp ha with ⟨hnotin, ha'⟩
    rw [List.flatMap_cons]
    refine List.Nodup.append ?_ (ih ha') ?_
    · refine List.Nodup.map ?_ (List.nodup_range k)
      intro s s' h
      simpa using h
    · intro x hx1 hx2
      obtain ⟨s, _, rfl⟩ := List.mem_map.mp hx1
      obtain ⟨a', ha', hx⟩ := List.mem_flatMap.mp hx2
      obtain ⟨s', _, hx'⟩ := List.mem_map.mp hx
      have : a = a' := by
        have := congrArg (fun p => p.2.1) hx'
        simpa using this.symm
      exact hnotin (this ▸ ha')

theorem nodup_prodTriples {I A : Type} [DecidableEq I] [DecidableEq A]
    (is : List I) (as : List A) (k : ℕ) (hi : is.Nodup) (ha : as.Nodup) :
    (prodTriples is as k).Nodup := by
  induction is with
  | nil => simp [prodTriples]
  | cons i is ih =>
    rcases List.nodup_cons.mp hi with ⟨hnotin, hi'⟩
    rw [prodTriples, List.flatMap_cons]
    refine List.Nodup.append (nodup_innerPairs i as k ha) (ih hi') ?_
    intro x hx1 hx2
    obtain ⟨a', _, hx⟩ := List.mem_flatMap.mp hx1
    obtain ⟨s', _, rfl⟩ := List.mem_map.mp hx
    have hx1' : (i, a', s' + 1).1 ∈ is := (mem_prodTriples.mp hx2).1
    exact hnotin hx1'

theorem length_innerPairs {I A : Type} (i : I) (as : List A) (k : ℕ) :
    (as.flatMap (fun a => (List.range k).map (fun s => (i, a, s + 1)))).length
      = as.length * k := by
  induction as with
  | nil => simp
  | cons a as ih =>
    rw [List.flatMap_cons, List.length_append, ih]
    simp [Nat.succ_mul, Nat.add_comm]

theorem length_prodTriples {I A : Type} (is : List I) (as : List A) (k : ℕ) :
    (prodTriples is as k).length = is.length * as.length * k := by
  induction is with
  | nil => simp [prodTriples]
  | cons i is ih =>
    rw [prodTriples, List.flatMap_cons, List.length_append]
    rw [length_innerPairs, show (is.flatMap (fun i => as.flatMap (fun a =>
      (List.range k).map (fun s => (i, a, s + 1))))) = prodTriples is as k from rfl, ih]
    simp [List.length_cons]
    ring

theorem sum_map_ite_eq_of_nodup {β : Type} [DecidableEq β] (l : List β)
    (f : β → ℕ) (b : β) (hl : l.Nodup) (hb : b ∈ l) :
    (l.map (fun x => if x = b then f x else 0)).sum = f b := by
  induction l with
  | nil => cases hb
  | cons a l ih =>
    rcases List.nodup_cons.mp hl with ⟨hna, hl'⟩
    rcases List.mem_cons.mp hb with hba | hb'
    · subst hba
      simp only [List.map_cons, List.sum_cons, if_pos rfl]
      have hz : (l.map (fun x => if x = b then f x else 0)).sum = 0 := by
        apply List.sum_eq_zero
        intro y hy
        obtain ⟨x, hx, rfl⟩ := List.mem_map.mp hy
        have hxb : x ≠ b := by
          intro h
          subst h
          exact hna hx
        rw [if_neg hxb]
      rw [hz]
      simp
    · have hab : a ≠ b := by
        intro h
        subst h
        exact hna hb'
      simp only [List.map_cons, List.sum_cons, if_neg hab, ih hl' hb',
        Nat.zero_add]

theorem cleanupBucket_of_ne_nil {I A Q : Type} [DecidableEq I] [DecidableEq A]
    (maxVal : Q) (df : List (StatRow I A Q)) (t : I × A × ℕ)
    (h : df.filter (fun r => statKey r = t) ≠ []) :
    cleanupBucket maxVal df t = df.filter (fun r => statKey r = t) := by
  rw [cleanupBucket]
  rcases hfil : df.filter (fun r => statKey r = t) with _ | ⟨x, l⟩
  · exact absurd hfil h
  · rfl

theorem cleanupBucket_of_nil {I A Q : Type} [DecidableEq I] [DecidableEq A]
    (maxVal : Q) (df : List (StatRow I A Q)) (t : I × A × ℕ)
    (h : df.filter (fun r => statKey r = t) = []) :
    cleanupBucket maxVal df t = [⟨t.1, t.2.1, t.2.2, maxVal⟩] := by
  rw [cleanupBucket, h]

theorem statKey_mem_cleanupBucket {I A Q : Type} [DecidableEq I]
    [DecidableEq A] (maxVal : Q) (df : List (StatRow I A Q)) (t : I × A × ℕ)
    {r : StatRow I A Q} (hr : r ∈ cleanupBucket maxVal df t) :
    statKey r = t := by
  rcases hfil : df.filter (fun r => statKey r = t) with _ | ⟨x, l⟩
  · rw [cleanupBucket_of_nil maxVal df t hfil] at hr
    rcases List.mem_singleton.mp hr with rfl
    rcases t with ⟨i, a, s⟩
    rfl
  · rw [cleanupBucket_of_ne_nil maxVal df t
      (by rw [hfil]; exact List.cons_ne_nil x l)] at hr
    exact of_decide_eq_true (List.mem_filter.mp hr).2

theorem length_cleanupBucket {I A Q : Type} [DecidableEq I] [DecidableEq A]
    (maxVal : Q) (df : List (StatRow I A Q)) (t : I × A × ℕ)
    (h : df.countP (fun r => statKey r = t) ≤ 1) :
    (cleanupBucket maxVal df t).length = 1 := by
  rw [List.countP_eq_length_filter] at h
  rcases hfil : df.filter (fun r => statKey r = t) with _ | ⟨x, l⟩
  · rw [cleanupBucket_of_nil maxVal df t hfil]
    rfl
  · rw [cleanupBucket_of_ne_nil maxVal df t (by rw [hfil]; exact List.cons_ne_nil x l), hfil]
    rw [hfil] at h
    simp only [List.length_cons] at h ⊢
    omega

theorem countP_cleanupBucket {I A Q : Type} [DecidableEq I] [DecidableEq A]
    (maxVal : Q) (df : List (StatRow I A Q)) (t t' : I × A × ℕ) :
    (cleanupBucket maxVal df t).countP (fun r => statKey r = t')
      = if t = t' then (cleanupBucket maxVal df t).length else 0 := by
  by_cases h : t = t'
  · subst h
    rw [if_pos rfl]
    apply List.countP_eq_length.mpr
    intro r hr
    exact decide_eq_true (statKey_mem_cleanupBucket maxVal df t hr)
  · rw [if_neg h]
    apply List.countP_eq_zero.mpr
    intro r hr
    have hk := statKey_mem_cleanupBucket maxVal df t hr
    simp only [decide_eq_true_eq]
    intro h'
    exact h (by rw [← hk, h'])

/-- C2: with the stats rows having replica counts inside `1..=k` and at most
one row per `(instance, algorithm, replica)` key, the completeness pass
returns exactly `num_instances * num_algorithms * k` rows, one per key of
the cartesian product; keys absent from the stats are filled with the
sentinel `f64::MAX`; and the reshape step `from_shape_vec` fails (fatal
error) exactly on a row-count mismatch, never truncating or padding. -/
theorem cleanup_missing_rows_complete {I A : Type} [DecidableEq I]
    [DecidableEq A] (df : List (StatRow I A ℚ)) (k : ℕ)
    (hrange : ∀ r ∈ df, 1 ≤ r.sample_size ∧ r.sample_size ≤ k)
    (huniq : ∀ t : I × A × ℕ, df.countP (fun r => statKey r = t) ≤ 1) :
    (cleanup_missing_rows MAXF64 df k).length
      = (uniqueStable (df.map (·.inst))).length
        * (uniqueStable (df.map (·.algo))).length * k
    ∧ (∀ t : I × A × ℕ, t.1 ∈ uniqueStable (df.map (·.inst))
        → t.2.1 ∈ uniqueStable (df.map (·.algo)) → 1 ≤ t.2.2 → t.2.2 ≤ k
        → (cleanup_missing_rows MAXF64 df k).countP (fun r => statKey r = t) = 1)
    ∧ (∀ t : I × A × ℕ, t.1 ∈ uniqueStable (df.map (·.inst))
        → t.2.1 ∈ uniqueStable (df.map (·.algo)) → 1 ≤ t.2.2 → t.2.2 ≤ k
        → df.countP (fun r => statKey r = t) = 0
        → (⟨t.1, t.2.1, t.2.2, MAXF64⟩ : StatRow I A ℚ)
            ∈ cleanup_missing_rows MAXF64 df k)
    ∧ (∀ (m n : ℕ) (l : List ℚ),
        from_shape_vec m n k l = none ↔ l.length ≠ m * n * k) := by
  have hkeymem : ∀ r ∈ df, statKey r ∈ prodTriples
      (uniqueStable (df.map (·.inst))) (uniqueStable (df.map (·.algo))) k := by
    intro r hr
    apply mem_prodTriples.mpr
    exact ⟨mem_uniqueStable.mpr (List.mem_map.mpr ⟨r, hr, rfl⟩),
      mem_uniqueStable.mpr (List.mem_map.mpr ⟨r, hr, rfl⟩),
      (hrange r hr).1, (hrange r hr).2⟩
  have hextras : df.filter (fun r => statKey r ∉ prodTriples
      (uniqueStable (df.map (·.inst))) (uniqueStable (df.map (·.algo))) k)
      = [] := by
    apply List.filter_eq_nil_iff.mpr
    intro r hr
    simp only [decide_eq_true_eq]
    intro hn
    exact hn (hkeymem r hr)
  have hout : cleanup_missing_rows MAXF64 df k
      = (prodTriples (uniqueStable (df.map (·.inst)))
          (uniqueStable (df.map (·.algo))) k).flatMap
            (cleanupBucket MAXF64 df) := by
    simp only [cleanup_missing_rows]
    rw [hextras, List.append_nil]
  have hnodup : (prodTriples (uniqueStable (df.map (·.inst)))
      (uniqueStable (df.map (·.algo))) k).Nodup :=
    nodup_prodTriples _ _ k (nodup_uniqueStable _) (nodup_uniqueStable _)
  refine ⟨?_, ?_, ?_, ?_⟩
  · rw [hout, List.length_flatMap]
    have hconst : (prodTriples (uniqueStable (df.map (·.inst)))
        (uniqueStable (df.map (·.algo))) k).map
          (List.length ∘ cleanupBucket MAXF64 df)
        = (prodTriples (uniqueStable (df.map (·.inst)))
            (uniqueStable (df.map (·.algo))) k).map (fun _ => 1) := by
      apply List.map_congr_left
      intro t _
      exact length_cleanupBucket MAXF64 df t (huniq t)
    rw [hconst, List.map_const', List.sum_replicate, smul_eq_mul,
      length_prodTriples, Nat.mul_one]
  · intro t h1 h2 h3 h4
    have ht : t ∈ prodTriples (uniqueStable (df.map (·.inst)))
        (uniqueStable (df.map (·.algo))) k :=
      mem_prodTriples.mpr ⟨h1, h2, h3, h4⟩
    rw [hout, List.countP_flatMap]
    have hpt : (prodTriples (uniqueStable (df.map (·.inst)))
        (uniqueStable (df.map (·.algo))) k).map
          (List.countP (fun r => statKey r = t) ∘ cleanupBucket MAXF64 df)
        = (prodTriples (uniqueStable (df.map (·.inst)))
            (uniqueStable (df.map (·.algo))) k).map
              (fun t' => if t' = t then 1 else 0) := by
      apply List.map_congr_left
      intro t' _
      show (cleanupBucket MAXF64 df t').countP (fun r => statKey r = t)
        = if t' = t then 1 else 0
      rw [countP_cleanupBucket]
      by_cases h : t' = t
      · rw [if_pos h, if_pos h, length_cleanupBucket MAXF64 df t' (huniq t')]
      · rw [if_neg h, if_neg h]
    rw [hpt]
    exact sum_map_ite_eq_of_nodup _ (fun _ => 1) t hnodup ht
  · intro t h1 h2 h3 h4 h0
    have ht : t ∈ prodTriples (uniqueStable (df.map (·.inst)))
        (uniqueStable (df.map (·.algo))) k :=
      mem_prodTriples.mpr ⟨h1, h2, h3, h4⟩
    rw [hout]
    apply List.mem_flatMap.mpr
    refine ⟨t, ht, ?_⟩
    have hfil : df.filter (fun r => statKey r = t) = [] := by
      rw [List.countP_eq_length_filter] at h0
      exact List.length_eq_zero.mp h0
    rw [cleanupBucket_of_nil MAXF64 df t hfil]
    exact List.mem_singleton.mpr rfl
  · intro m n l
    by_cases h : l.length = m * n * k
    · simp [from_shape_vec, h]
    · simp [from_shape_vec, h]

theorem cleanup_missing_rows_complete_witness :
    (∀ r ∈ [(⟨0, 0, 1, (5:ℚ)⟩ : StatRow ℕ ℕ ℚ)],
      1 ≤ r.sample_size ∧ r.sample_size ≤ 2)
    ∧ (cleanup_missing_rows MAXF64 [(⟨0, 0, 1, (5:ℚ)⟩ : StatRow ℕ ℕ ℚ)] 2).length
        = (uniqueStable ([(⟨0, 0, 1, (5:ℚ)⟩ : StatRow ℕ ℕ ℚ)].map (·.inst))).length
          * (uniqueStable ([(⟨0, 0, 1, (5:ℚ)⟩ : StatRow ℕ ℕ ℚ)].map (·.algo))).length
          * 2 :=
  ⟨by decide,
    (cleanup_missing_rows_complete [(⟨0, 0, 1, (5:ℚ)⟩ : StatRow ℕ ℕ ℚ)] 2
      (by decide) (fun t => List.countP_le_length _)).1⟩

theorem statKey_mem_prod {I A Q : Type} [DecidableEq I] [DecidableEq A]
    (df : List (StatRow I A Q)) (k : ℕ)
    (hrange : ∀ r ∈ df, 1 ≤ r.sample_size ∧ r.sample_size ≤ k)
    {r : StatRow I A Q} (hr : r ∈ df) :
    statKey r ∈ prodTriples (uniqueStable (df.map (·.inst)))
      (uniqueStable (df.map (·.algo))) k :=
  mem_prodTriples.mpr ⟨mem_uniqueStable.mpr (List.mem_map.mpr ⟨r, hr, rfl⟩),
    mem_uniqueStable.mpr (List.mem_map.mpr ⟨r, hr, rfl⟩),
    (hrange r hr).1, (hrange r hr).2⟩

theorem cleanup_missing_rows_eq_flatMap {I A Q : Type} [DecidableEq I]
    [DecidableEq A] (maxVal : Q) (df : List (StatRow I A Q)) (k : ℕ)
    (hrange : ∀ r ∈ df, 1 ≤ r.sample_size ∧ r.sample_size ≤ k) :
    cleanup_missing_rows maxVal df k
      = (prodTriples (uniqueStable (df.map (·.inst)))
          (uniqueStable (df.map (·.algo))) k).flatMap
            (cleanupBucket maxVal df) := by
  have hextras : df.filter (fun r => statKey r ∉ prodTriples
      (uniqueStable (df.map (·.inst))) (uniqueStable (df.map (·.algo))) k)
      = [] := by
    apply List.filter_eq_nil_iff.mpr
    intro r hr
    simp only [decide_eq_true_eq]
    intro hn
    exact hn (statKey_mem_prod df k hrange hr)
  simp only [cleanup_missing_rows]
  rw [hextras, List.append_nil]

/-- C7: running the completeness pass on a table whose replica counts all
lie in `1..=k` and that already contains a row for every
`(instance, algorithm, replica)` key of the cartesian product is a no-op up
to row order: the output is a permutation of the input, so no row is added
or removed and no sentinel entry is introduced. -/
theorem cleanup_missing_rows_noop {I A : Type} [DecidableEq I] [DecidableEq A]
    (df : List (StatRow I A ℚ)) (k : ℕ)
    (hrange : ∀ r ∈ df, 1 ≤ r.sample_size ∧ r.sample_size ≤ k)
    (hcomplete : ∀ t : I × A × ℕ, t.1 ∈ uniqueStable (df.map (·.inst))
        → t.2.1 ∈ uniqueStable (df.map (·.algo)) → 1 ≤ t.2.2 → t.2.2 ≤ k
        → ∃ r ∈ df, statKey r = t) :
    (cleanup_missing_rows MAXF64 df k).Perm df := by
  rw [cleanup_missing_rows_eq_flatMap MAXF64 df k hrange]
  apply List.perm_iff_count.mpr
  intro r
  rw [List.count_flatMap]
  have hnodup : (prodTriples (uniqueStable (df.map (·.inst)))
      (uniqueStable (df.map (·.algo))) k).Nodup :=
    nodup_prodTriples _ _ k (nodup_uniqueStable _) (nodup_uniqueStable _)
  by_cases hk : statKey r ∈ prodTriples (uniqueStable (df.map (·.inst)))
      (uniqueStable (df.map (·.algo))) k
  · have hpt : (prodTriples (uniqueStable (df.map (·.inst)))
        (uniqueStable (df.map (·.algo))) k).map
          (List.count r ∘ cleanupBucket MAXF64 df)
        = (prodTriples (uniqueStable (df.map (·.inst)))
            (uniqueStable (df.map (·.algo))) k).map
              (fun t => if t = statKey r then df.count r else 0) := by
      apply List.map_congr_left
      intro t ht
      show (cleanupBucket MAXF64 df t).count r = _
      obtain ⟨hm1, hm2, hm3, hm4⟩ := mem_prodTriples.mp ht
      obtain ⟨r', hr', hkey⟩ := hcomplete t hm1 hm2 hm3 hm4
      have hne : df.filter (fun x => statKey x = t) ≠ [] := by
        intro hnil
        have hmem : r' ∈ df.filter (fun x => statKey x = t) :=
          List.mem_filter.mpr ⟨hr', decide_eq_true hkey⟩
        rw [hnil] at hmem
        cases hmem
      rw [cleanupBucket_of_ne_nil MAXF64 df t hne]
      by_cases hteq : t = statKey r
      · rw [if_pos hteq]
        subst hteq
        exact List.count_filter (decide_eq_true rfl)
      · rw [if_neg hteq]
        apply List.count_eq_zero.mpr
        intro hmem
        have hx := (List.mem_filter.mp hmem).2
        exact hteq (of_decide_eq_true hx).symm
    rw [hpt]
    exact sum_map_ite_eq_of_nodup _ (fun _ => df.count r) (statKey r) hnodup hk
  · have hrdf : r ∉ df := fun hr => hk (statKey_mem_prod df k hrange hr)
    have hzero : ∀ t ∈ prodTriples (uniqueStable (df.map (·.inst)))
        (uniqueStable (df.map (·.algo))) k,
        (List.count r ∘ cleanupBucket MAXF64 df) t = 0 := by
      intro t ht
      apply List.count_eq_zero.mpr
      intro hmem
      exact hk ((statKey_mem_cleanupBucket MAXF64 df t hmem) ▸ ht)
    rw [List.map_congr_left hzero, List.map_const', List.sum_replicate,
      smul_eq_mul, Nat.mul_zero, List.count_eq_zero.mpr hrdf]

theorem cleanup_missing_rows_noop_witness :
    (∀ r ∈ [(⟨0, 0, 1, (5:ℚ)⟩ : StatRow ℕ ℕ ℚ)],
      1 ≤ r.sample_size ∧ r.sample_size ≤ 1)
    ∧ (cleanup_missing_rows MAXF64 [(⟨0, 0, 1, (5:ℚ)⟩ : StatRow ℕ ℕ ℚ)] 1).Perm
        [(⟨0, 0, 1, (5:ℚ)⟩ : StatRow ℕ ℕ ℚ)] :=
  ⟨by decide,
    cleanup_missing_rows_noop [(⟨0, 0, 1, (5:ℚ)⟩ : StatRow ℕ ℕ ℚ)] 1
      (by decide)
      (by
        intro t h1 h2 h3 h4
        refine ⟨⟨0, 0, 1, (5:ℚ)⟩, List.mem_singleton.mpr rfl, ?_⟩
        have ht1 : t.1 = 0 := by
          have := mem_uniqueStable.mp h1
          simpa using this
        have ht2 : t.2.1 = 0 := by
          have := mem_uniqueStable.mp h2
          simpa using this
        have ht3 : t.2.2 = 1 := by omega
        rcases t with ⟨i, a, s⟩
        simp only at ht1 ht2 ht3
        rw [statKey, ht1, ht2, ht3])⟩

theorem winnersOf_subset {I A Q : Type} [DecidableEq I] [DecidableEq A]
    [LinearOrder Q] (df : List (RunRow I A Q)) {a : A}
    (ha : a ∈ winnersOf df) : a ∈ uniqueStable (df.map (·.algo)) := by
  obtain ⟨i, _, hsome⟩ := List.mem_filterMap.mp ha
  obtain ⟨r, hrmin, hra⟩ := Option.map_eq_some'.mp hsome
  have hrdf : r ∈ df :=
    (List.mem_filter.mp (argmin_first_mem _ _ r hrmin)).1
  exact mem_uniqueStable.mpr (List.mem_map.mpr ⟨r, hrdf, hra⟩)

/-- C8: `best_per_instance_count` returns exactly one row per distinct
algorithm of the input — its keys are a permutation of the distinct
algorithm list, so its length is the number of distinct algorithms — and
every algorithm that never wins an instance still appears, with count 0. -/
theorem best_per_instance_count_total {I A : Type} [DecidableEq I]
    [DecidableEq A] (df : List (RunRow I A ℚ)) :
    (best_per_instance_count df).length
      = (uniqueStable (df.map (·.algo))).length
    ∧ ((best_per_instance_count df).map Prod.fst).Perm
        (uniqueStable (df.map (·.algo)))
    ∧ (∀ a ∈ uniqueStable (df.map (·.algo)), a ∉ winnersOf df
        → (a, (0:ℚ)) ∈ best_per_instance_count df) := by
  have hkeys : (best_per_instance_count df).map Prod.fst
      = uniqueStable (winnersOf df)
        ++ (uniqueStable (df.map (·.algo))).filter
            (fun a => a ∉ uniqueStable (winnersOf df)) := by
    simp [best_per_instance_count, List.map_map, Function.comp_def]
  have hperm : ((best_per_instance_count df).map Prod.fst).Perm
      (uniqueStable (df.map (·.algo))) := by
    rw [hkeys]
    apply List.perm_iff_count.mpr
    intro a
    rw [List.count_append]
    by_cases hu : a ∈ uniqueStable (df.map (·.algo))
    · by_cases hw : a ∈ uniqueStable (winnersOf df)
      · rw [List.count_eq_one_of_mem (nodup_uniqueStable _) hw]
        have hnotfil : a ∉ (uniqueStable (df.map (·.algo))).filter
            (fun a => a ∉ uniqueStable (winnersOf df)) := by
          intro hmem
          have := (List.mem_filter.mp hmem).2
          rw [decide_eq_true_eq] at this
          exact this hw
        rw [List.count_eq_zero.mpr hnotfil,
          List.count_eq_one_of_mem (nodup_uniqueStable _) hu]
      · rw [List.count_eq_zero.mpr hw]
        have hfil : a ∈ (uniqueStable (df.map (·.algo))).filter
            (fun a => a ∉ uniqueStable (winnersOf df)) :=
          List.mem_filter.mpr ⟨hu, decide_eq_true hw⟩
        rw [List.count_eq_one_of_mem
          ((nodup_uniqueStable _).filter _) hfil,
          List.count_eq_one_of_mem (nodup_uniqueStable _) hu]
    · have hw : a ∉ uniqueStable (winnersOf df) := by
        intro hmem
        exact hu (winnersOf_subset df (mem_uniqueStable.mp hmem))
      have hnotfil : a ∉ (uniqueStable (df.map (·.algo))).filter
          (fun a => a ∉ uniqueStable (winnersOf df)) := by
        intro hmem
        exact hu (List.mem_filter.mp hmem).1
      rw [List.count_eq_zero.mpr hw, List.count_eq_zero.mpr hnotfil,
        List.count_eq_zero.mpr hu]
  refine ⟨?_, hperm, ?_⟩
  · have := hperm.length_eq
    rwa [List.length_map] at this
  · intro a hu hnw
    apply List.mem_append_right
    apply List.mem_map.mpr
    refine ⟨a, ?_, rfl⟩
    apply List.mem_filter.mpr
    refine ⟨hu, decide_eq_true ?_⟩
    intro hmem
    exact hnw (mem_uniqueStable.mp hmem)

/-- The fixture of `test_best_per_instance_count` (src/csv_parser/tests.rs
lines 105-126): two instances, three algorithms, `algo3` never best. -/
def countTestDf : List (RunRow ℕ ℕ ℚ) :=
  [⟨1, 1, 1, 1⟩, ⟨1, 2, 2, 1⟩, ⟨1, 3, 2, 1⟩,
   ⟨2, 1, 2, 1⟩, ⟨2, 2, 1, 1⟩, ⟨2, 3, 2, 1⟩]

theorem best_per_instance_count_total_witness :
    (3 ∈ uniqueStable (countTestDf.map (·.algo)) ∧ 3 ∉ winnersOf countTestDf)
    ∧ ((3 : ℕ), (0:ℚ)) ∈ best_per_instance_count countTestDf :=
  ⟨⟨by decide, by decide⟩,
    (best_per_instance_count_total countTestDf).2.2 3 (by decide) (by decide)⟩

/-! ## InitialAssignmentHeuristic (spec §4.5; `round_to_sum` is tested by
src/solver/tests.rs lines 80-89 but its implementation is not under src/,
where src/solver.rs still carries an older `get_b_start`) -/

/-- The weighted share sum `Σ share[a] * thread_count[a]` over integer
shares. -/
def weightedSumZ (shares : List ℤ) (steps : List ℕ) : ℤ :=
  (List.zipWith (fun (z : ℤ) (t : ℕ) => z * (t : ℤ)) shares steps).sum

/-- Modelled from the spec: the greedy pick of §4.5 step 4 — among the
indices whose step (thread count) does not exceed the remaining budget,
the one with the largest remainder loss, the first such index winning
ties (stable max). -/
def pickLargestLoss (losses : List ℚ) (steps : List ℕ) (rem : ℤ) : Option ℕ :=
  ((List.range (min losses.length steps.length)).filter
      (fun i => ((steps.getD i 0 : ℕ) : ℤ) ≤ rem)).foldl
    (fun best i =>
      match best with
      | none => some i
      | some b => if losses.getD b 0 < losses.getD i 0 then some i else some b)
    none

/-- Modelled from the spec: the greedy loop of §4.5 step 4 — repeatedly pick
the largest fitting loss, increment its integer share, zero its loss and
reduce the budget; stop when nothing fits.  `fuel` bounds the number of
iterations; with all steps ≥ 1 a fuel of `rem.toNat` is never exhausted
before the loop stops on its own. -/
def greedyAssign (steps : List ℕ) : ℕ → List ℤ → List ℚ → ℤ → List ℤ × ℤ
  | 0, shares, _, rem => (shares, rem)
  | fuel + 1, shares, losses, rem =>
    match pickLargestLoss losses steps rem with
    | none => (shares, rem)
    | some i =>
        greedyAssign steps fuel (shares.set i (shares.getD i 0 + 1))
          (losses.set i 0) (rem - (steps.getD i 0 : ℕ))

/-- Modelled from the spec: `round_to_sum(fractions, steps, sum)` (§4.5
steps 2-4, fixture in src/solver/tests.rs `test_round_to_sum`; the
implementation itself is absent from src/).  Fractional shares are split
into integer floors and remainder losses; the leftover budget
`sum - Σ floor[a]*steps[a]` is assigned greedily to the largest losses
whose step fits. -/
def round_to_sum (fractions : List ℚ) (steps : List ℕ) (sum : ℕ) :
    List ℚ :=
  let floors : List ℤ := fractions.map (fun f => ⌊f⌋)
  let losses : List ℚ := List.zipWith (fun f (z : ℤ) => f - (z : ℚ)) fractions floors
  let rem : ℤ := (sum : ℤ) - weightedSumZ floors steps
  ((greedyAssign steps rem.toNat floors losses rem).1).map (fun (z : ℤ) => (z : ℚ))

/-- Modelled from the spec: §4.5 step 1, the fractional shares
`(count[a] / num_instances) * (num_cores / thread_count[a])` fed into
`round_to_sum` (the newer `get_b_start` wrapper absent from src/). -/
def initial_assignment (counts : List ℚ) (threads : List ℕ)
    (m num_cores : ℕ) : List ℚ :=
  round_to_sum
    (List.zipWith (fun (c : ℚ) (t : ℕ) => (c / (m : ℚ)) * ((num_cores : ℚ) / (t : ℚ)))
      counts threads)
    threads num_cores

theorem pick_foldl_mem (losses : List ℚ) :
    ∀ (l : List ℕ) (acc : Option ℕ) (i : ℕ),
      l.foldl (fun best j =>
        match best with
        | none => some j
        | some b => if losses.getD b 0 < losses.getD j 0 then some j else some b)
        acc = some i
      → acc = some i ∨ i ∈ l := by
  intro l
  induction l with
  | nil => intro acc i h; exact Or.inl h
  | cons a l ih =>
    intro acc i h
    rw [List.foldl_cons] at h
    rcases ih _ i h with hstep | hl
    · rcases acc with _ | b
      · simp only at hstep
        cases hstep
        exact Or.inr (List.mem_cons_self a l)
      · simp only at hstep
        by_cases hlt : losses.getD b 0 < losses.getD a 0
        · rw [if_pos hlt] at hstep
          cases hstep
          exact Or.inr (List.mem_cons_self a l)
        · rw [if_neg hlt] at hstep
          exact Or.inl hstep
    · exact Or.inr (List.mem_cons_of_mem a hl)

theorem pickLargestLoss_spec (losses : List ℚ) (steps : List ℕ) (rem : ℤ)
    (i : ℕ) (h : pickLargestLoss losses steps rem = some i) :
    i < losses.length ∧ i < steps.length ∧ ((steps.getD i 0 : ℕ) : ℤ) ≤ rem := by
  rcases pick_foldl_mem losses _ none i h with hacc | hmem
  · cases hacc
  · have h1 := (List.mem_filter.mp hmem).1
    have h2 := (List.mem_filter.mp hmem).2
    rw [decide_eq_true_eq] at h2
    have hlt := List.mem_range.mp h1
    exact ⟨lt_of_lt_of_le hlt (min_le_left _ _),
      lt_of_lt_of_le hlt (min_le_right _ _), h2⟩

theorem weightedSumZ_set (i : ℕ) :
    ∀ (shares : List ℤ) (steps : List ℕ), i < shares.length → i < steps.length →
      weightedSumZ (shares.set i (shares.getD i 0 + 1)) steps
        = weightedSumZ shares steps + (steps.getD i 0 : ℕ) := by
  induction i with
  | zero =>
    intro shares steps h1 h2
    rcases shares with _ | ⟨z, zs⟩
    · cases h1
    rcases steps with _ | ⟨t, ts⟩
    · cases h2
    show (List.zipWith (fun (z : ℤ) (t : ℕ) => z * (t : ℤ))
      ((z + 1) :: zs) (t :: ts)).sum = _
    show (z + 1) * (t : ℤ)
      + (List.zipWith (fun (z : ℤ) (t : ℕ) => z * (t : ℤ)) zs ts).sum = _
    show _ = z * (t : ℤ)
      + (List.zipWith (fun (z : ℤ) (t : ℕ) => z * (t : ℤ)) zs ts).sum + (t : ℤ)
    ring
  | succ i ih =>
    intro shares steps h1 h2
    rcases shares with _ | ⟨z, zs⟩
    · cases h1
    rcases steps with _ | ⟨t, ts⟩
    · cases h2
    have h1' : i < zs.length := Nat.lt_of_succ_lt_succ h1
    have h2' : i < ts.length := Nat.lt_of_succ_lt_succ h2
    simp only [List.set, weightedSumZ, List.zipWith, List.sum_cons] at *
    have := ih zs ts h1' h2'
    simp only [weightedSumZ] at this
    have hg : (z :: zs).getD (i + 1) 0 = zs.getD i 0 := rfl
    have hg2 : (t :: ts).getD (i + 1) 0 = ts.getD i 0 := rfl
    rw [hg, hg2, this]
    ring

theorem greedyAssign_invariant (steps : List ℕ) :
    ∀ (fuel : ℕ) (shares : List ℤ) (losses : List ℚ) (rem : ℤ),
      shares.length = steps.length → losses.length = steps.length →
      0 ≤ rem →
      weightedSumZ (greedyAssign steps fuel shares losses rem).1 steps
          + (greedyAssign steps fuel shares losses rem).2
        = weightedSumZ shares steps + rem
      ∧ 0 ≤ (greedyAssign steps fuel shares losses rem).2 := by
  intro fuel
  induction fuel with
  | zero =>
    intro shares losses rem _ _ hrem
    exact ⟨rfl, hrem⟩
  | succ fuel ih =>
    intro shares losses rem hlen1 hlen2 hrem
    rw [greedyAssign]
    rcases hp : pickLargestLoss losses steps rem with _ | i
    · exact ⟨rfl, hrem⟩
    · obtain ⟨hi1, hi2, hile⟩ := pickLargestLoss_spec losses steps rem i hp
      have hlen1' : (shares.set i (shares.getD i 0 + 1)).length = steps.length := by
        rw [List.length_set]; exact hlen1
      have hlen2' : (losses.set i 0).length = steps.length := by
        rw [List.length_set]; exact hlen2
      have hrem' : 0 ≤ rem - ((steps.getD i 0 : ℕ) : ℤ) := by omega
      obtain ⟨heq, hpos⟩ := ih (shares.set i (shares.getD i 0 + 1))
        (losses.set i 0) (rem - (steps.getD i 0 : ℕ)) hlen1' hlen2' hrem'
      refine ⟨?_, hpos⟩
      rw [heq, weightedSumZ_set i shares steps (hlen1 ▸ hi2) hi2]
      ring

theorem weightedSum_cast (shares : List ℤ) :
    ∀ (steps : List ℕ),
      (List.zipWith (fun (q : ℚ) (t : ℕ) => q * (t : ℚ))
        (shares.map (fun (z : ℤ) => (z : ℚ))) steps).sum
      = ((weightedSumZ shares steps : ℤ) : ℚ) := by
  induction shares with
  | nil => intro steps; simp [weightedSumZ]
  | cons z zs ih =>
    intro steps
    rcases steps with _ | ⟨t, ts⟩
    · simp [weightedSumZ]
    · simp only [List.map_cons, List.zipWith_cons_cons, List.sum_cons,
        weightedSumZ, ih ts]
      push_cast
      ring

theorem weightedSum_floor_le (fracs : List ℚ) :
    ∀ (steps : List ℕ),
      ((weightedSumZ (fracs.map (fun f => ⌊f⌋)) steps : ℤ) : ℚ)
        ≤ (List.zipWith (fun (f : ℚ) (t : ℕ) => f * (t : ℚ)) fracs steps).sum := by
  induction fracs with
  | nil => intro steps; simp [weightedSumZ]
  | cons f fs ih =>
    intro steps
    rcases steps with _ | ⟨t, ts⟩
    · simp [weightedSumZ]
    · simp only [List.map_cons, weightedSumZ, List.zipWith_cons_cons,
        List.sum_cons]
      push_cast
      have h1 : ((⌊f⌋ : ℚ)) * (t : ℚ) ≤ f * (t : ℚ) :=
        mul_le_mul_of_nonneg_right (Int.floor_le f) (by positivity)
      have h2 := ih ts
      simp only [weightedSumZ] at h2
      push_cast at h2
      linarith

theorem fraction_weightedSum (m num_cores : ℕ) :
    ∀ (counts : List ℚ) (threads : List ℕ),
      counts.length = threads.length → (∀ t ∈ threads, 1 ≤ t) →
      (List.zipWith (fun (f : ℚ) (t : ℕ) => f * (t : ℚ))
        (List.zipWith (fun (c : ℚ) (t : ℕ) => (c / (m : ℚ)) * ((num_cores : ℚ) / (t : ℚ)))
          counts threads) threads).sum
      = ((num_cores : ℚ) / (m : ℚ)) * counts.sum := by
  intro counts
  induction counts with
  | nil => intro threads _ _; simp
  | cons c cs ih =>
    intro threads hlen hpos
    rcases threads with _ | ⟨t, ts⟩
    · cases hlen
    · have ht : (1 : ℕ) ≤ t := hpos t (List.mem_cons_self t ts)
      have htne : (t : ℚ) ≠ 0 := by
        have : (0 : ℚ) < t := by exact_mod_cast Nat.lt_of_lt_of_le Nat.zero_lt_one ht
        exact ne_of_gt this
      simp only [List.zipWith_cons_cons, List.sum_cons]
      rw [ih ts (by simpa using hlen) (fun x hx => hpos x (List.mem_cons_of_mem t hx))]
      rw [mul_assoc, div_mul_cancel₀ _ htne]
      ring

/-- C6: the initial-assignment heuristic (spec §4.5: fractional shares
`(count/num_instances)*(num_cores/threads)` rounded by `round_to_sum`)
never over-allocates: `Σ share[a] * thread_count[a] ≤ num_cores` for every
best-count vector (non-negative counts summing to at most the number of
instances), all thread counts ≥ 1, num_instances ≥ 1. -/
theorem initial_assignment_budget (counts : List ℚ) (threads : List ℕ)
    (m num_cores : ℕ) (hm : 1 ≤ m) (hlen : counts.length = threads.length)
    (hpos : ∀ t ∈ threads, 1 ≤ t) (hnn : ∀ c ∈ counts, 0 ≤ c)
    (hsum : counts.sum ≤ (m : ℚ)) :
    (List.zipWith (fun (q : ℚ) (t : ℕ) => q * (t : ℚ))
      (initial_assignment counts threads m num_cores) threads).sum
    ≤ (num_cores : ℚ) := by
  have hmne : (m : ℚ) ≠ 0 := by
    have : (0 : ℚ) < m := by exact_mod_cast Nat.lt_of_lt_of_le Nat.zero_lt_one hm
    exact ne_of_gt this
  set fracs := List.zipWith
    (fun (c : ℚ) (t : ℕ) => (c / (m : ℚ)) * ((num_cores : ℚ) / (t : ℚ))) counts threads with hfr
  have hflen : fracs.length = threads.length := by
    rw [hfr, List.length_zipWith, hlen, Nat.min_self]
  -- the floored weighted sum never exceeds the budget
  have hfloors : ((weightedSumZ (fracs.map (fun f => ⌊f⌋)) threads : ℤ) : ℚ)
      ≤ (num_cores : ℚ) := by
    refine le_trans (weightedSum_floor_le fracs threads) ?_
    rw [hfr, fraction_weightedSum m num_cores counts threads hlen hpos]
    have hnc : (0 : ℚ) ≤ (num_cores : ℚ) / (m : ℚ) := by positivity
    calc ((num_cores : ℚ) / (m : ℚ)) * counts.sum
        ≤ ((num_cores : ℚ) / (m : ℚ)) * (m : ℚ) :=
          mul_le_mul_of_nonneg_left hsum hnc
      _ = (num_cores : ℚ) := div_mul_cancel₀ _ hmne
  have hfloorsZ : weightedSumZ (fracs.map (fun f => ⌊f⌋)) threads
      ≤ (num_cores : ℤ) := by exact_mod_cast hfloors
  have hrem : 0 ≤ (num_cores : ℤ)
      - weightedSumZ (fracs.map (fun f => ⌊f⌋)) threads := by omega
  have hlenf : (fracs.map (fun f => ⌊f⌋)).length = threads.length := by
    rw [List.length_map, hflen]
  have hlenl : (List.zipWith (fun f (z : ℤ) => f - (z : ℚ)) fracs
      (fracs.map (fun f => ⌊f⌋))).length = threads.length := by
    rw [List.length_zipWith, List.length_map, Nat.min_self, hflen]
  obtain ⟨heq, hpos'⟩ := greedyAssign_invariant threads
    (((num_cores : ℤ) - weightedSumZ (fracs.map (fun f => ⌊f⌋)) threads).toNat)
    (fracs.map (fun f => ⌊f⌋))
    (List.zipWith (fun f (z : ℤ) => f - (z : ℚ)) fracs (fracs.map (fun f => ⌊f⌋)))
    ((num_cores : ℤ) - weightedSumZ (fracs.map (fun f => ⌊f⌋)) threads)
    hlenf hlenl hrem
  show (List.zipWith (fun (q : ℚ) (t : ℕ) => q * (t : ℚ))
      (((greedyAssign threads
        (((num_cores : ℤ) - weightedSumZ (fracs.map (fun f => ⌊f⌋)) threads).toNat)
        (fracs.map (fun f => ⌊f⌋))
        (List.zipWith (fun f (z : ℤ) => f - (z : ℚ)) fracs
          (fracs.map (fun f => ⌊f⌋)))
        ((num_cores : ℤ) - weightedSumZ (fracs.map (fun f => ⌊f⌋)) threads)).1).map
          (fun (z : ℤ) => (z : ℚ)))
      threads).sum ≤ (num_cores : ℚ)
  rw [weightedSum_cast]
  have hfin : weightedSumZ (greedyAssign threads
      (((num_cores : ℤ) - weightedSumZ (fracs.map (fun f => ⌊f⌋)) threads).toNat)
      (fracs.map (fun f => ⌊f⌋))
      (List.zipWith (fun f (z : ℤ) => f - (z : ℚ)) fracs
        (fracs.map (fun f => ⌊f⌋)))
      ((num_cores : ℤ) - weightedSumZ (fracs.map (fun f => ⌊f⌋)) threads)).1
      threads ≤ (num_cores : ℤ) := by omega
  exact_mod_cast hfin

theorem initial_assignment_budget_witness :
    (1 ≤ 2 ∧ (∀ t ∈ [1, 2], 1 ≤ t) ∧ (∀ c ∈ [(1 : ℚ), 1], 0 ≤ c)
      ∧ ([(1 : ℚ), 1].sum ≤ ((2 : ℕ) : ℚ)))
    ∧ (List.zipWith (fun (q : ℚ) (t : ℕ) => q * (t : ℚ))
        (initial_assignment [(1 : ℚ), 1] [1, 2] 2 4) [1, 2]).sum
      ≤ ((4 : ℕ) : ℚ) :=
  ⟨⟨by norm_num, by decide, by norm_num, by norm_num⟩,
    initial_assignment_budget [(1 : ℚ), 1] [1, 2] 2 4 (by norm_num) rfl
      (by decide) (by norm_num) (by norm_num)⟩

/-! ## preprocess_df (src/csv_parser.rs lines 132-214) -/

/-- One raw input row with the normalized column names of
`DataframeConfig::new` (src/datastructures.rs lines 248-259). -/
structure RawRow where
  algorithm : String
  num_threads : ℤ
  inst : String
  k : ℤ
  feasibility_threshold : ℚ
  feasibility_score : ℚ
  quality : ℚ
  time : ℚ
  failed : String
  timeout : String
deriving DecidableEq

/-- `f64::EPSILON = 2^-52`, the machine-epsilon threshold of the quality
remap. -/
def EPSF64 : ℚ := Rat.divInt 1 (2 ^ 52)

/-- The `0.03` literal of the `feasibility_score` filter. -/
def FEAS_BOUND : ℚ := Rat.divInt 3 100

/-- Substring test on character lists (structural recursion): the model of
polars `str().contains("no")` with a literal pattern (Rust regex `no`
matches as a substring). -/
def isInfixOfCL (p : List Char) : List Char → Bool
  | [] => List.isPrefixOf p []
  | c :: t => List.isPrefixOf p (c :: t) || isInfixOfCL p t

/-- `str().contains(pat)` of the `failed`/`timeout` filters. -/
def str_contains (s pat : String) : Bool :=
  isInfixOfCL pat.toList s.toList

/-- `fix_instance_names` (src/csv_parser.rs lines 228-236). -/
def fix_instance_names (s : String) : String :=
  if s.endsWith "scotch" then s.replace "scotch" "graph"
  else if s.endsWith "mtx" then s.replace "mtx" "mtx.hgr"
  else s

/-- The per-file body of `preprocess_df`: rename the instance, remap
near-zero quality to `1.0`, then the three validity filters
(`feasibility_score <= 0.03`, `failed` contains `"no"`, `timeout` contains
`"no"`), in source order. -/
def preprocess_file (rows : List RawRow) : List RawRow :=
  (((rows.map (fun r => { r with
      inst := fix_instance_names r.inst,
      quality := if |r.quality| ≤ EPSF64 then 1 else r.quality })).filter
    (fun r => r.feasibility_score ≤ FEAS_BOUND)).filter
    (fun r => str_contains r.failed "no")).filter
    (fun r => str_contains r.timeout "no")

/-- The multi-column ascending comparator of the final
`sort_by_exprs(sort_order, ...)`: (instance, k, feasibility_threshold,
algorithm, num_threads). -/
def rowLe (a b : RawRow) : Bool :=
  if a.inst ≠ b.inst then decide (a.inst < b.inst)
  else if a.k ≠ b.k then decide (a.k < b.k)
  else if a.feasibility_threshold ≠ b.feasibility_threshold then
    decide (a.feasibility_threshold < b.feasibility_threshold)
  else if a.algorithm ≠ b.algorithm then decide (a.algorithm < b.algorithm)
  else decide (a.num_threads ≤ b.num_threads)

/-- Insertion of one row into a sorted list. -/
def insertSorted (le : RawRow → RawRow → Bool) (r : RawRow) :
    List RawRow → List RawRow
  | [] => [r]
  | x :: l => if le r x then r :: x :: l else x :: insertSorted le r l

/-- Insertion sort: the model of the closing sort of `preprocess_df` (the
polars sort does not maintain input order on ties; no claim depends on the
produced order, only on membership, which any sort preserves). -/
def sortRows (le : RawRow → RawRow → Bool) (l : List RawRow) : List RawRow :=
  l.foldr (insertSorted le) []

theorem mem_insertSorted (le : RawRow → RawRow → Bool) (r x : RawRow) :
    ∀ l : List RawRow, x ∈ insertSorted le r l ↔ x = r ∨ x ∈ l := by
  intro l
  induction l with
  | nil => simp [insertSorted]
  | cons y l ih =>
    simp only [insertSorted]
    by_cases h : le r y
    · rw [if_pos h]
      simp [List.mem_cons]
    · rw [if_neg h]
      simp only [List.mem_cons, ih]
      tauto

theorem mem_sortRows (le : RawRow → RawRow → Bool) (x : RawRow) :
    ∀ l : List RawRow, x ∈ sortRows le l ↔ x ∈ l := by
  intro l
  induction l with
  | nil => simp [sortRows]
  | cons y l ih =>
    simp only [sortRows, List.foldr_cons] at *
    rw [mem_insertSorted, ih, List.mem_cons]

/-- `preprocess_df`: per-file preprocessing, concatenation, final sort. -/
def preprocess_df (files : List (List RawRow)) : List RawRow :=
  sortRows rowLe (files.flatMap preprocess_file)

/-- C10 (amended): every row of the preprocessed table passes the three
validity filters — `feasibility_score ≤ 0.03`, and the `failed` and
`timeout` columns CONTAIN the substring "no" (the code's
`str().contains("no")`, weaker than equality with "no") — before any
aggregate is computed from the table. -/
theorem preprocess_df_validity (files : List (List RawRow)) (r : RawRow)
    (hr : r ∈ preprocess_df files) :
    r.feasibility_score ≤ FEAS_BOUND
    ∧ str_contains r.failed "no" = true
    ∧ str_contains r.timeout "no" = true := by
  rw [preprocess_df, mem_sortRows] at hr
  obtain ⟨f, _, hrf⟩ := List.mem_flatMap.mp hr
  rw [preprocess_file] at hrf
  have h3 := (List.mem_filter.mp hrf).2
  have hrf2 := (List.mem_filter.mp hrf).1
  have h2 := (List.mem_filter.mp hrf2).2
  have hrf1 := (List.mem_filter.mp hrf2).1
  have h1 := (List.mem_filter.mp hrf1).2
  exact ⟨of_decide_eq_true h1, h2, h3⟩

theorem preprocess_df_validity_witness :
    ((⟨"a", 1, "x", 2, 0, 0, 1, 1, "no", "no"⟩ : RawRow)
      ∈ preprocess_df [[⟨"a", 1, "x", 2, 0, 0, 1, 1, "no", "no"⟩]])
    ∧ ((⟨"a", 1, "x", 2, 0, 0, 1, 1, "no", "no"⟩ : RawRow).feasibility_score
        ≤ FEAS_BOUND
      ∧ str_contains (⟨"a", 1, "x", 2, 0, 0, 1, 1, "no", "no"⟩ : RawRow).failed
          "no" = true
      ∧ str_contains (⟨"a", 1, "x", 2, 0, 0, 1, 1, "no", "no"⟩ : RawRow).timeout
          "no" = true) :=
  ⟨by decide, preprocess_df_validity [[⟨"a", 1, "x", 2, 0, 0, 1, 1, "no", "no"⟩]]
    ⟨"a", 1, "x", 2, 0, 0, 1, 1, "no", "no"⟩ (by decide)⟩

/-- C10 counterexample: a row whose `failed` column is `"north"` (not equal
to `"no"`) survives preprocessing because the code tests substring
containment, so the claim `failed = "no"` for every surviving row is false. -/
theorem preprocess_df_contains_counterexample :
    (⟨"a", 1, "x", 2, 0, 0, 1, 1, "north", "no"⟩ : RawRow)
      ∈ preprocess_df [[⟨"a", 1, "x", 2, 0, 0, 1, 1, "north", "no"⟩]]
    ∧ (⟨"a", 1, "x", 2, 0, 0, 1, 1, "north", "no"⟩ : RawRow).failed ≠ "no" := by
  constructor
  · decide
  · decide

/-! ## SlowdownFilter and stats (src/csv_parser/utils.rs lines 139-253 and
345-391), over `ℝ` because the code uses `ln`, `exp` and `sqrt` -/

noncomputable section RealPipeline

open Classical

/-- `f64::MAX` as a real constant. -/
def MAXF : ℝ := ((2 : ℝ) ^ 53 - 1) * 2 ^ 971

/-- `f64::EPSILON = 2^-52` as a real constant. -/
def EPSF : ℝ := 1 / 2 ^ 52

/-- The `gmean` closure of `filter_algorithms_by_slowdown`
(src/csv_parser/utils.rs lines 351-355): the SUM OF LOGS DIVIDED BY THE
LENGTH — the mean of `ln`, with no `exp` applied. -/
def lgmean (l : List ℝ) : ℝ :=
  (l.map Real.log).sum / l.length

/-- The spec's §4.3 formula, `gmean(values) = exp(mean(ln v))` — what the
code's `gmean` closure would compute if it exponentiated. -/
def gmean_spec (l : List ℝ) : ℝ :=
  Real.exp ((l.map Real.log).sum / l.length)

/-- The code's reference value `gmean_best_per_instance`: the `gmean`
closure applied to the `best_time` column. -/
def slowdownRef {I A : Type} [DecidableEq I] (df : List (RunRow I A ℝ)) : ℝ :=
  lgmean ((best_per_instance_time df).map Prod.snd)

/-- The per-algorithm `gmean` aggregation of
`filter_algorithms_by_slowdown`. -/
def algoLgmean {I A : Type} [DecidableEq A] (df : List (RunRow I A ℝ))
    (a : A) : ℝ :=
  lgmean ((df.filter (fun r => r.algo = a)).map (·.time))

/-- `filter_algorithms_by_slowdown` (src/csv_parser/utils.rs lines
345-391): keep the algorithms whose per-algorithm `gmean` (mean of logs) is
`< slowdown_ratio * gmean_best_per_instance`, then inner-join the surviving
algorithm set back onto the run records. -/
def filter_algorithms_by_slowdown {I A : Type} [DecidableEq I] [DecidableEq A]
    (df : List (RunRow I A ℝ)) (rho : ℝ) : List (RunRow I A ℝ) :=
  let kept := (uniqueStable (df.map (·.algo))).filter
    (fun a => algoLgmean df a < rho * slowdownRef df)
  df.flatMap (fun r => (kept.filter (fun a => a = r.algo)).map (fun _ => r))

/-- Follows the spec's words (§4.3 and claim C1): the same filter with the
exponentiated geometric mean `gmean = exp(mean ln)` on both sides of the
comparison. -/
def filter_algorithms_by_slowdown_spec {I A : Type} [DecidableEq I]
    [DecidableEq A] (df : List (RunRow I A ℝ)) (rho : ℝ) :
    List (RunRow I A ℝ) :=
  let ref := gmean_spec ((best_per_instance_time df).map Prod.snd)
  let kept := (uniqueStable (df.map (·.algo))).filter
    (fun a => gmean_spec ((df.filter (fun r => r.algo = a)).map (·.time))
      < rho * ref)
  df.flatMap (fun r => (kept.filter (fun a => a = r.algo)).map (fun _ => r))

/-- Follows the spec's words (§4.3 step 2 and claim C9): the code's filter
with the reference clamped to `1.0` when it is within machine epsilon of
0. -/
def filter_algorithms_by_slowdown_clamped {I A : Type} [DecidableEq I]
    [DecidableEq A] (df : List (RunRow I A ℝ)) (rho : ℝ) :
    List (RunRow I A ℝ) :=
  let ref := if |slowdownRef df| ≤ EPSF then 1 else slowdownRef df
  let kept := (uniqueStable (df.map (·.algo))).filter
    (fun a => algoLgmean df a < rho * ref)
  df.flatMap (fun r => (kept.filter (fun a => a = r.algo)).map (fun _ => r))

/-- The quality samples of one `(algorithm, instance)` group after the
`quality < f64::MAX` filter of the `mean`/`std` aggregations. -/
def groupQs {I A : Type} [DecidableEq I] [DecidableEq A]
    (df : List (RunRow I A ℝ)) (p : A × I) : List ℝ :=
  ((df.filter (fun r => r.algo = p.1 ∧ r.inst = p.2)).map
    (·.quality)).filter (fun q => q < MAXF)

/-- The group's `mean_quality` column: polars `mean()` with
`fill_null(f64::MAX)` (null exactly when the filtered group is empty). -/
def statsMean {I A : Type} [DecidableEq I] [DecidableEq A]
    (df : List (RunRow I A ℝ)) (p : A × I) : ℝ :=
  if (groupQs df p).length = 0 then MAXF
  else (groupQs df p).sum / ((groupQs df p).length : ℝ)

/-- The group's `std_quality` column: polars `std(1)` (Bessel-corrected)
with `fill_null(f64::MAX)` (null exactly when the filtered group has at
most one sample). -/
def statsStd {I A : Type} [DecidableEq I] [DecidableEq A]
    (df : List (RunRow I A ℝ)) (p : A × I) : ℝ :=
  if (groupQs df p).length ≤ 1 then MAXF
  else Real.sqrt (((groupQs df p).map
      (fun x => (x - (groupQs df p).sum / ((groupQs df p).length : ℝ)) ^ 2)).sum
    / (((groupQs df p).length : ℝ) - 1))

/-- `stats` (src/csv_parser/utils.rs lines 139-237): group by
`(algorithm_fields, instance_fields)` in stable order; per group the
`mean`/`std(1)` aggregations (`statsMean` and `statsStd`); inner-join the
per-instance lower bound; cross-join the replica counts
`1..=sample_size`; apply `expected_normdist_min` per row.  The lower-bound
table (read from the quality-lb file, or the fallback best-per-instance
values of the utils.rs variant) is modelled as the total function
`quality_lb`. -/
def stats {I A : Type} [DecidableEq I] [DecidableEq A]
    (df : List (RunRow I A ℝ)) (sample_size : ℕ) (quality_lb : I → ℝ) :
    List (StatRow I A ℝ) :=
  (uniqueStable (df.map (fun r => (r.algo, r.inst)))).flatMap (fun p =>
    (List.range sample_size).map (fun j =>
      ⟨p.2, p.1, j + 1,
        expected_normdist_min_val (statsMean df p) (statsStd df p) (j + 1)
          (quality_lb p.2)⟩))

end RealPipeline

theorem mem_slowdown_join {I A : Type} [DecidableEq I] [DecidableEq A]
    (df : List (RunRow I A ℝ)) (pb : A → Bool) (r : RunRow I A ℝ) :
    (r ∈ df.flatMap (fun r' =>
      (((uniqueStable (df.map (·.algo))).filter pb).filter
        (fun a => a = r'.algo)).map (fun _ => r')))
    ↔ r ∈ df ∧ pb r.algo = true := by
  rw [List.mem_flatMap]
  constructor
  · rintro ⟨r', hr', hmem⟩
    obtain ⟨a, ha, rfl⟩ := List.mem_map.mp hmem
    have ha1 := (List.mem_filter.mp ha).1
    have ha2 := (List.mem_filter.mp ha).2
    rw [decide_eq_true_eq] at ha2
    subst ha2
    exact ⟨hr', (List.mem_filter.mp ha1).2⟩
  · rintro ⟨hrdf, hcond⟩
    refine ⟨r, hrdf, List.mem_map.mpr ⟨r.algo, ?_, rfl⟩⟩
    apply List.mem_filter.mpr
    refine ⟨?_, decide_eq_true rfl⟩
    apply List.mem_filter.mpr
    exact ⟨mem_uniqueStable.mpr (List.mem_map.mpr ⟨r, hrdf, rfl⟩), hcond⟩

/-- C1 (amended): a run record survives `filter_algorithms_by_slowdown`
exactly when its algorithm's MEAN-OF-LOG time (the code's `gmean` closure,
which never exponentiates) is strictly below `slowdown_ratio` times the
mean-of-log of the per-instance best times — not the exponentiated
geometric means of the spec's formula. -/
theorem filter_algorithms_by_slowdown_mem {I A : Type} [DecidableEq I]
    [DecidableEq A] (df : List (RunRow I A ℝ)) (rho : ℝ) (r : RunRow I A ℝ) :
    r ∈ filter_algorithms_by_slowdown df rho
    ↔ r ∈ df ∧ algoLgmean df r.algo < rho * slowdownRef df := by
  have h := mem_slowdown_join df
    (fun a => decide (algoLgmean df a < rho * slowdownRef df)) r
  rw [decide_eq_true_eq] at h
  exact h

/-- C9 (amended): no clamping of the reference exists in the code: when the
computed log-domain reference is 0 (in particular within machine epsilon of
0), the filter keeps an algorithm exactly when its mean-of-log time is
negative, for EVERY slowdown ratio — it does not behave as it would with
the reference clamped to 1.0. -/
theorem filter_slowdown_unclamped {I A : Type} [DecidableEq I]
    [DecidableEq A] (df : List (RunRow I A ℝ)) (rho : ℝ) (r : RunRow I A ℝ)
    (h : slowdownRef df = 0) :
    r ∈ filter_algorithms_by_slowdown df rho
    ↔ r ∈ df ∧ algoLgmean df r.algo < 0 := by
  have hmem := mem_slowdown_join df
    (fun a => decide (algoLgmean df a < rho * slowdownRef df)) r
  rw [decide_eq_true_eq] at hmem
  have hiff : r ∈ filter_algorithms_by_slowdown df rho
      ↔ r ∈ df ∧ algoLgmean df r.algo < rho * slowdownRef df := hmem
  rw [hiff, h, mul_zero]

/-- A one-row table with time `1/2`: the log-domain and exp-domain slowdown
comparisons disagree on it. -/
noncomputable def slowTestDf : List (RunRow ℕ ℕ ℝ) := [⟨0, 0, 1, 1/2⟩]

/-- A one-row table with time `1`: its log-domain reference is exactly 0. -/
noncomputable def refTestDf : List (RunRow ℕ ℕ ℝ) := [⟨0, 0, 1, 1⟩]

theorem slowTestDf_ref : slowdownRef slowTestDf = Real.log (1/2) := by
  have hb : best_per_instance_time slowTestDf = [(0, (1/2 : ℝ))] := rfl
  rw [slowdownRef, hb]
  show lgmean [(1/2 : ℝ)] = Real.log (1/2)
  rw [lgmean]
  simp

theorem slowTestDf_algo : algoLgmean slowTestDf 0 = Real.log (1/2) := by
  have hf : (slowTestDf.filter (fun r => r.algo = 0)).map (·.time)
      = [(1/2 : ℝ)] := rfl
  rw [algoLgmean, hf, lgmean]
  simp

/-- C1 counterexample: on the one-row table with time `1/2` and
`slowdown_ratio = 2`, algorithm 0 satisfies the spec's exp-domain keep
condition (`gmean_time = 1/2 < 2 * reference = 1`), yet the code's filter
(log domain: `ln(1/2) < 2 * ln(1/2)` is false) drops its row: the output is
empty while the spec-faithful filter keeps the row. -/
theorem slowdown_filter_counterexample :
    filter_algorithms_by_slowdown slowTestDf 2 = []
    ∧ gmean_spec ((slowTestDf.filter (fun r => r.algo = 0)).map (·.time))
        < 2 * gmean_spec ((best_per_instance_time slowTestDf).map Prod.snd)
    ∧ filter_algorithms_by_slowdown_spec slowTestDf 2 = slowTestDf := by
  have hglt : Real.log (1/2) < 0 := Real.log_neg (by norm_num) (by norm_num)
  have hgm : gmean_spec [(1/2 : ℝ)] = 1/2 := by
    rw [gmean_spec]
    have h1 : (([(1/2 : ℝ)].map Real.log).sum) / (([(1/2 : ℝ)].length : ℕ) : ℝ)
        = Real.log (1/2) := by
      simp
    rw [h1]
    exact Real.exp_log (by norm_num)
  refine ⟨?_, ?_, ?_⟩
  · have hcond : ¬ (algoLgmean slowTestDf 0 < 2 * slowdownRef slowTestDf) := by
      rw [slowTestDf_ref, slowTestDf_algo]
      linarith
    have hu : uniqueStable (slowTestDf.map (·.algo)) = [0] := rfl
    simp only [filter_algorithms_by_slowdown]
    have hks : (uniqueStable (slowTestDf.map (·.algo))).filter
        (fun a => decide (algoLgmean slowTestDf a < 2 * slowdownRef slowTestDf))
        = [] := by
      rw [hu]
      simp only [List.filter_cons, List.filter_nil, decide_eq_true_eq]
      rw [if_neg hcond]
    rw [hks]
    simp
  · have h1 : (slowTestDf.filter (fun r => r.algo = 0)).map (·.time)
        = [(1/2 : ℝ)] := rfl
    have h2 : (best_per_instance_time slowTestDf).map Prod.snd
        = [(1/2 : ℝ)] := rfl
    rw [h1, h2, hgm]
    norm_num
  · have h2 : (best_per_instance_time slowTestDf).map Prod.snd
        = [(1/2 : ℝ)] := rfl
    have hcond : gmean_spec ((slowTestDf.filter
        (fun r => r.algo = (0:ℕ))).map (·.time))
        < 2 * gmean_spec ((best_per_instance_time slowTestDf).map Prod.snd) := by
      have h1 : (slowTestDf.filter (fun r => r.algo = (0:ℕ))).map (·.time)
          = [(1/2 : ℝ)] := rfl
      rw [h1, h2, hgm]
      norm_num
    have hu : uniqueStable (slowTestDf.map (·.algo)) = [0] := rfl
    simp only [filter_algorithms_by_slowdown_spec]
    have hks : (uniqueStable (slowTestDf.map (·.algo))).filter
        (fun a => decide (gmean_spec ((slowTestDf.filter
          (fun r => r.algo = a)).map (·.time))
          < 2 * gmean_spec ((best_per_instance_time slowTestDf).map Prod.snd)))
        = [0] := by
      rw [hu]
      simp only [List.filter_cons, List.filter_nil, decide_eq_true_eq]
      rw [if_pos hcond]
    rw [hks]
    rfl

theorem refTestDf_ref : slowdownRef refTestDf = 0 := by
  have hb : best_per_instance_time refTestDf = [(0, (1 : ℝ))] := rfl
  rw [slowdownRef, hb]
  show lgmean [(1 : ℝ)] = 0
  rw [lgmean]
  simp

theorem refTestDf_algo : algoLgmean refTestDf 0 = 0 := by
  have hf : (refTestDf.filter (fun r => r.algo = 0)).map (·.time)
      = [(1 : ℝ)] := rfl
  rw [algoLgmean, hf, lgmean]
  simp

/-- C9 counterexample: on the one-row table with time `1` the computed
reference is exactly 0 (within machine epsilon of 0), but the code performs
no clamping: with `slowdown_ratio = 1` it returns the empty table, while
the spec's clamped filter (reference replaced by `1.0`) would keep the
row — the filter does NOT behave as it would with reference `1.0`. -/
theorem slowdown_clamp_counterexample :
    |slowdownRef refTestDf| ≤ EPSF
    ∧ filter_algorithms_by_slowdown refTestDf 1 = []
    ∧ filter_algorithms_by_slowdown_clamped refTestDf 1 = refTestDf := by
  have hu : uniqueStable (refTestDf.map (·.algo)) = [0] := rfl
  refine ⟨?_, ?_, ?_⟩
  · rw [refTestDf_ref]
    rw [EPSF]
    norm_num
  · have hcond : ¬ (algoLgmean refTestDf 0 < 1 * slowdownRef refTestDf) := by
      rw [refTestDf_ref, refTestDf_algo]
      norm_num
    show refTestDf.flatMap _ = []
    have hks : (uniqueStable (refTestDf.map (·.algo))).filter
        (fun a => decide (algoLgmean refTestDf a < 1 * slowdownRef refTestDf))
        = [] := by
      rw [hu]
      simp only [List.filter_cons, List.filter_nil, decide_eq_true_eq]
      rw [if_neg hcond]
    rw [hks]
    simp
  · have hclamp : (if |slowdownRef refTestDf| ≤ EPSF then (1:ℝ)
        else slowdownRef refTestDf) = 1 := by
      rw [if_pos]
      rw [refTestDf_ref, EPSF]
      norm_num
    have hcond : algoLgmean refTestDf 0
        < 1 * (if |slowdownRef refTestDf| ≤ EPSF then (1:ℝ)
            else slowdownRef refTestDf) := by
      rw [hclamp, refTestDf_algo]
      norm_num
    show refTestDf.flatMap _ = refTestDf
    have hks : (uniqueStable (refTestDf.map (·.algo))).filter
        (fun a => decide (algoLgmean refTestDf a
          < 1 * (if |slowdownRef refTestDf| ≤ EPSF then (1:ℝ)
              else slowdownRef refTestDf))) = [0] := by
      rw [hu]
      simp only [List.filter_cons, List.filter_nil, decide_eq_true_eq]
      rw [if_pos hcond]
    rw [hks]
    rfl

theorem expected_maximum_approximation_one :
    expected_maximum_approximation 1 = 0 := by
  rw [expected_maximum_approximation]
  simp

theorem one_le_expected_maximum_approximation (s : ℕ) (hs : 2 ≤ s) :
    1 ≤ expected_maximum_approximation s := by
  rw [expected_maximum_approximation]
  have h2 : (2:ℝ) ≤ (s:ℝ) := by exact_mod_cast hs
  have hl : Real.log 2 ≤ Real.log s := Real.log_le_log (by norm_num) h2
  have hlt := Real.log_two_gt_d9
  have h1 : (1:ℝ) ≤ 2 * Real.log s := by nlinarith
  calc (1:ℝ) = Real.sqrt 1 := Real.sqrt_one.symm
    _ ≤ Real.sqrt (2 * Real.log s) := Real.sqrt_le_sqrt h1

theorem MAXF_nonneg : (0:ℝ) ≤ MAXF := by
  rw [MAXF]
  norm_num

theorem two_le_MAXF : (2:ℝ) ≤ MAXF := by
  rw [MAXF]
  norm_num

theorem stats_group_rows {I A : Type} [DecidableEq I] [DecidableEq A]
    (df : List (RunRow I A ℝ)) (k : ℕ) (quality_lb : I → ℝ) (p : A × I)
    (hp : p ∈ uniqueStable (df.map (fun r => (r.algo, r.inst)))) (j : ℕ)
    (hj : j < k) :
    (⟨p.2, p.1, j + 1,
      expected_normdist_min_val (statsMean df p) (statsStd df p) (j + 1)
        (quality_lb p.2)⟩ : StatRow I A ℝ) ∈ stats df k quality_lb := by
  rw [stats]
  apply List.mem_flatMap.mpr
  exact ⟨p, hp, List.mem_map.mpr ⟨j, List.mem_range.mpr hj, rfl⟩⟩

/-- C3 (amended): for a group with exactly one valid quality sample `q`,
the standard deviation is filled with the sentinel `f64::MAX` (not treated
as "use mean as-is"); the resulting `e_min` row for replica count `s` is
`max(q - f64::MAX * sqrt(2 ln s), lb)`: it equals the mean `q` at `s = 1`
(when `lb ≤ q`), but for every `s ≥ 2` it collapses to the lower bound `lb`
(whenever `q - lb ≤ f64::MAX`), not to the mean. -/
theorem stats_singleton_group {I A : Type} [DecidableEq I] [DecidableEq A]
    (df : List (RunRow I A ℝ)) (k : ℕ) (quality_lb : I → ℝ) (a : A) (i : I)
    (q : ℝ)
    (hq : (df.filter (fun r => r.algo = a ∧ r.inst = i)).map (·.quality) = [q])
    (hlt : q < MAXF) (hlb : quality_lb i ≤ q) :
    (∀ s : ℕ, 1 ≤ s → s ≤ k →
      (⟨i, a, s, expected_normdist_min_val q MAXF s (quality_lb i)⟩
        : StatRow I A ℝ) ∈ stats df k quality_lb)
    ∧ expected_normdist_min_val q MAXF 1 (quality_lb i) = q
    ∧ (∀ s : ℕ, 2 ≤ s → q - quality_lb i ≤ MAXF →
        expected_normdist_min_val q MAXF s (quality_lb i) = quality_lb i) := by
  have hg : groupQs df (a, i) = [q] := by
    show ((df.filter (fun r => r.algo = a ∧ r.inst = i)).map
      (·.quality)).filter (fun q' => q' < MAXF) = [q]
    rw [hq]
    simp only [List.filter_cons, List.filter_nil, decide_eq_true_eq]
    rw [if_pos hlt]
  have hmean : statsMean df (a, i) = q := by
    rw [statsMean, hg]
    simp
  have hstd : statsStd df (a, i) = MAXF := by
    rw [statsStd, hg]
    simp
  have hpair : (a, i) ∈ uniqueStable (df.map (fun r => (r.algo, r.inst))) := by
    have hne : df.filter (fun r => r.algo = a ∧ r.inst = i) ≠ [] := by
      intro h0
      rw [h0] at hq
      cases hq
    rcases hfil : df.filter (fun r => r.algo = a ∧ r.inst = i) with _ | ⟨r0, l0⟩
    · exact absurd hfil hne
    · have hr0 : r0 ∈ df.filter (fun r => r.algo = a ∧ r.inst = i) := by
        rw [hfil]; exact List.mem_cons_self r0 l0
      have h1 := (List.mem_filter.mp hr0).1
      have h2 := (List.mem_filter.mp hr0).2
      rw [decide_eq_true_eq] at h2
      apply mem_uniqueStable.mpr
      apply List.mem_map.mpr
      exact ⟨r0, h1, by rw [h2.1, h2.2]⟩
  refine ⟨?_, ?_, ?_⟩
  · intro s hs1 hsk
    have hrow := stats_group_rows df k quality_lb (a, i) hpair (s - 1)
      (by omega)
    rw [hmean, hstd] at hrow
    have hs' : s - 1 + 1 = s := by omega
    rw [hs'] at hrow
    exact hrow
  · rw [expected_normdist_min_val, expected_maximum_approximation_one]
    rw [mul_zero, sub_zero]
    exact max_eq_left hlb
  · intro s hs2 hql
    rw [expected_normdist_min_val]
    apply max_eq_right
    have h1 := one_le_expected_maximum_approximation s hs2
    have h2 : MAXF * 1 ≤ MAXF * expected_maximum_approximation s :=
      mul_le_mul_of_nonneg_left h1 MAXF_nonneg
    rw [mul_one] at h2
    linarith

/-- The singleton-group fixture: algorithm 0 has one quality sample `5` on
instance 0, algorithm 1 one sample `3`; the lower bound is 3. -/
noncomputable def statsTestDf : List (RunRow ℕ ℕ ℝ) :=
  [⟨0, 0, 5, 1⟩, ⟨0, 1, 3, 1⟩]

/-- The per-instance lower bound of the fixture (the best quality, 3). -/
noncomputable def statsTestLb : ℕ → ℝ := fun _ => 3

theorem stats_singleton_group_witness :
    ((statsTestDf.filter (fun r => r.algo = 0 ∧ r.inst = 0)).map (·.quality)
        = [(5:ℝ)]
      ∧ (5:ℝ) < MAXF ∧ statsTestLb 0 ≤ 5)
    ∧ ((∀ s : ℕ, 1 ≤ s → s ≤ 2 →
        (⟨0, 0, s, expected_normdist_min_val 5 MAXF s (statsTestLb 0)⟩
          : StatRow ℕ ℕ ℝ) ∈ stats statsTestDf 2 statsTestLb)
      ∧ expected_normdist_min_val 5 MAXF 1 (statsTestLb 0) = 5
      ∧ (∀ s : ℕ, 2 ≤ s → 5 - statsTestLb 0 ≤ MAXF →
          expected_normdist_min_val 5 MAXF s (statsTestLb 0) = statsTestLb 0)) :=
  ⟨⟨rfl, by rw [MAXF]; norm_num, by show (3:ℝ) ≤ 5; norm_num⟩,
    stats_singleton_group statsTestDf 2 statsTestLb 0 0 5 rfl
      (by rw [MAXF]; norm_num) (by show (3:ℝ) ≤ 5; norm_num)⟩

theorem statsTest_mean0 : statsMean statsTestDf (0, 0) = 5 := by
  have hg : groupQs statsTestDf (0, 0) = [(5:ℝ)] := by
    show ((statsTestDf.filter (fun r => r.algo = 0 ∧ r.inst = 0)).map
      (·.quality)).filter (fun q' => q' < MAXF) = [(5:ℝ)]
    have h1 : (statsTestDf.filter (fun r => r.algo = 0 ∧ r.inst = 0)).map
        (·.quality) = [(5:ℝ)] := rfl
    rw [h1]
    simp only [List.filter_cons, List.filter_nil, decide_eq_true_eq]
    rw [if_pos (by rw [MAXF]; norm_num : (5:ℝ) < MAXF)]
  rw [statsMean, hg]
  simp

theorem statsTest_std0 : statsStd statsTestDf (0, 0) = MAXF := by
  have hg : groupQs statsTestDf (0, 0) = [(5:ℝ)] := by
    show ((statsTestDf.filter (fun r => r.algo = 0 ∧ r.inst = 0)).map
      (·.quality)).filter (fun q' => q' < MAXF) = [(5:ℝ)]
    have h1 : (statsTestDf.filter (fun r => r.algo = 0 ∧ r.inst = 0)).map
        (·.quality) = [(5:ℝ)] := rfl
    rw [h1]
    simp only [List.filter_cons, List.filter_nil, decide_eq_true_eq]
    rw [if_pos (by rw [MAXF]; norm_num : (5:ℝ) < MAXF)]
  rw [statsStd, hg]
  simp

theorem statsTest_val2 :
    expected_normdist_min_val 5 MAXF 2 (statsTestLb 0) = 3 := by
  have hlb : statsTestLb 0 = 3 := rfl
  rw [expected_normdist_min_val, hlb]
  apply max_eq_right
  have h1 := one_le_expected_maximum_approximation 2 le_rfl
  have h2 : MAXF * 1 ≤ MAXF * expected_maximum_approximation 2 :=
    mul_le_mul_of_nonneg_left h1 MAXF_nonneg
  rw [mul_one] at h2
  have := two_le_MAXF
  linarith

/-- C3 counterexample: in the fixture, the `(algorithm 0, instance 0)`
group has exactly one sample, the mean `5`; yet the pipeline's row for
replica count 2 carries `e_min = 3` (the lower bound), and no row
`(0, 0, 2)` with `e_min = 5` (the mean) exists — contradicting "e_min
equals the group mean for every replica count". -/
theorem stats_singleton_counterexample :
    (statsTestDf.filter (fun r => r.algo = 0 ∧ r.inst = 0)).map (·.quality)
        = [(5:ℝ)]
    ∧ (⟨0, 0, 2, (3:ℝ)⟩ : StatRow ℕ ℕ ℝ) ∈ stats statsTestDf 2 statsTestLb
    ∧ (⟨0, 0, 2, (5:ℝ)⟩ : StatRow ℕ ℕ ℝ) ∉ stats statsTestDf 2 statsTestLb := by
  have hpairs : uniqueStable (statsTestDf.map (fun r => (r.algo, r.inst)))
      = [(0, 0), (1, 0)] := rfl
  refine ⟨rfl, ?_, ?_⟩
  · have hrow := stats_group_rows statsTestDf 2 statsTestLb (0, 0)
      (by rw [hpairs]; exact List.mem_cons_self _ _) 1 (by omega)
    rw [statsTest_mean0, statsTest_std0] at hrow
    have : (1:ℕ) + 1 = 2 := rfl
    rw [this, statsTest_val2] at hrow
    exact hrow
  · intro hmem
    rw [stats, hpairs] at hmem
    obtain ⟨p, hp, hin⟩ := List.mem_flatMap.mp hmem
    obtain ⟨j, hj, hrow⟩ := List.mem_map.mp hin
    have hj2 : j < 2 := List.mem_range.mp hj
    rcases List.mem_cons.mp hp with rfl | hp'
    · -- group (0, 0): the row's e_min would have to be 5
      have he := congrArg (fun r : StatRow ℕ ℕ ℝ => r.e_min) hrow
      have hs := congrArg (fun r : StatRow ℕ ℕ ℝ => r.sample_size) hrow
      simp only at he hs
      interval_cases j
      · cases hs
      · rw [statsTest_mean0, statsTest_std0, statsTest_val2] at he
        norm_num at he
    · rcases List.mem_cons.mp hp' with rfl | hp''
      · -- group (1, 0): the row's algorithm is 1, not 0
        have ha := congrArg (fun r : StatRow ℕ ℕ ℝ => r.algo) hrow
        simp only at ha
        cases ha
      · cases hp''

theorem filter_slowdown_unclamped_witness :
    slowdownRef refTestDf = 0
    ∧ ((⟨0, 0, 1, (1:ℝ)⟩ : RunRow ℕ ℕ ℝ)
        ∈ filter_algorithms_by_slowdown refTestDf 1
      ↔ (⟨0, 0, 1, (1:ℝ)⟩ : RunRow ℕ ℕ ℝ) ∈ refTestDf
        ∧ algoLgmean refTestDf 0 < 0) :=
  ⟨refTestDf_ref,
    filter_slowdown_unclamped refTestDf 1 ⟨0, 0, 1, 1⟩ refTestDf_ref⟩

set_option maxHeartbeats 1000000 in
/-- Sanity check of the spec-modelled `round_to_sum` against the exact
fixture of `test_round_to_sum` (src/solver/tests.rs lines 80-89):
`round_to_sum([2.4, 1.6, 0.8, 1.9, 1.6], [1, 2, 4, 8, 1], 20)
 = [2.0, 2.0, 1.0, 1.0, 2.0]`. -/
theorem round_to_sum_fixture :
    round_to_sum [12/5, 8/5, 4/5, 19/10, 8/5] [1, 2, 4, 8, 1] 20
      = [2, 2, 1, 1, 2] := by
  have hf1 : ⌊(12/5 : ℚ)⌋ = 2 := by norm_num
  have hf2 : ⌊(8/5 : ℚ)⌋ = 1 := by norm_num
  have hf3 : ⌊(4/5 : ℚ)⌋ = 0 := by norm_num
  have hf4 : ⌊(19/10 : ℚ)⌋ = 1 := by norm_num
  rw [round_to_sum]
  norm_num [hf1, hf2, hf3, hf4, weightedSumZ, greedyAssign, pickLargestLoss,
    List.zipWith, List.filter, List.foldl, List.getD, List.range_succ]
